import Mathlib

/-!
Verification of the 3D bin-packing core (Extreme Points heuristic).

The definitions below are a shallow embedding of the Go source: `Pack`
distributes quantity-expanded unit items over container instances chosen
from a list of box types, using `packIntoBox` (greedy Extreme-Points
placement inside one box) as a simulator and `findBestBox` as the
selection policy.  Go `int` is modelled as `Int` (no overflow is
modelled); the Go sentinel values (`bestIdx == -1`, `bestScore ==
math.MaxInt`) are modelled with `Option`; Go's in-place `slices.SortFunc`
is modelled with a deterministic comparison sort over the same comparison.
-/

namespace SpaceOptimiser

/-- An item to be packed: identity, three dimensions, and a quantity
(`InputItem` in the source). -/
structure InputItem where
  id : String
  w : Int
  h : Int
  d : Int
  quantity : Int
deriving DecidableEq, Repr

/-- An available box type (`InputBox` in the source). -/
structure InputBox where
  id : String
  w : Int
  h : Int
  d : Int
deriving DecidableEq, Repr

/-- An item's position and effective dimensions inside a box
(`Placement` in the source). -/
structure Placement where
  itemID : String
  x : Int
  y : Int
  z : Int
  w : Int
  h : Int
  d : Int
deriving DecidableEq, Repr

/-- A committed box with its packed contents (`PackedBox` in the source). -/
structure PackedBox where
  boxID : String
  contents : List Placement
deriving DecidableEq, Repr

/-- An available region / extreme point in the box (`FreeSpace` in the
source). -/
structure FreeSpace where
  x : Int
  y : Int
  z : Int
  w : Int
  h : Int
  d : Int
deriving DecidableEq, Repr

/-- `(b InputBox) volume()` from the source. -/
def InputBox.volume (b : InputBox) : Int := b.w * b.h * b.d

/-- `(fs FreeSpace) volume()` from the source. -/
def FreeSpace.volume (fs : FreeSpace) : Int := fs.w * fs.h * fs.d

/-- Internal representation for packing (`itemToPack` in the source):
the input item together with its precomputed volume and max dimension. -/
structure itemToPack where
  item : InputItem
  volume : Int
  maxDim : Int
deriving DecidableEq, Repr

/-- `rotations(w, h, d)`: the 6 axis-aligned orientations of a cuboid. -/
def rotations (w h d : Int) : List (Int × Int × Int) :=
  [(w, h, d), (w, d, h), (h, w, d), (h, d, w), (d, w, h), (d, h, w)]

/-- `fitsInBox(box, x, y, z, w, h, d)`. -/
def fitsInBox (box : InputBox) (x y z w h d : Int) : Bool :=
  decide (0 ≤ x) && decide (0 ≤ y) && decide (0 ≤ z) &&
    decide (x + w ≤ box.w) && decide (y + h ≤ box.h) && decide (z + d ≤ box.d)

/-- `boxesOverlap(p, x, y, z, w, h, d)`: the placed box `p` and the
candidate box strictly overlap on all three axes. -/
def boxesOverlap (p : Placement) (x y z w h d : Int) : Bool :=
  decide (p.x < x + w) && decide (x < p.x + p.w) &&
    decide (p.y < y + h) && decide (y < p.y + p.h) &&
    decide (p.z < z + d) && decide (z < p.z + p.d)

/-- `hasOverlap(placements, x, y, z, w, h, d)`. -/
def hasOverlap (placements : List Placement) (x y z w h d : Int) : Bool :=
  placements.any fun p => boxesOverlap p x y z w h d

/-- Stable insertion of `a` into `l` under the comparison `le`. -/
def orderedInsert {α : Type} (le : α → α → Bool) (a : α) : List α → List α
  | [] => [a]
  | b :: l => if le a b then a :: b :: l else b :: orderedInsert le a l

/-- Insertion sort under the comparison `le`.  Go's `slices.SortFunc`
(an unstable in-place sort whose permutation on ties is unspecified) is
modelled as this deterministic comparison sort. -/
def insertionSort {α : Type} (le : α → α → Bool) : List α → List α
  | [] => []
  | a :: l => orderedInsert le a (insertionSort le l)

/-- The comparison used by `sortByPosition`: ascending y, then z, then x. -/
def posLe (a b : FreeSpace) : Bool :=
  if a.y ≠ b.y then decide (a.y < b.y)
  else if a.z ≠ b.z then decide (a.z < b.z)
  else decide (a.x ≤ b.x)

/-- `sortByPosition(points)` (`slices.SortFunc` under `posLe`). -/
def sortByPosition (points : List FreeSpace) : List FreeSpace :=
  insertionSort posLe points

/-- The score computed inside `findBestPlacement` for an anchor `ep` and
rotated dimensions `(w, h, d)`. -/
def placementScore (ep : FreeSpace) (w h d : Int) : Int :=
  ep.y * 1000 + ep.z * 100 + ep.x * 10 + (ep.w - w) + (ep.h - h) + (ep.d - d)

/-- The running "best candidate" of `findBestPlacement`: its score, the
chosen extreme point and the chosen rotated dimensions. -/
structure Cand where
  score : Int
  ep : FreeSpace
  w : Int
  h : Int
  d : Int
deriving DecidableEq, Repr

/-- The (anchor, rotation) pairs scanned by `findBestPlacement`'s nested
loops, outer loop over extreme points, inner over the 6 rotations. -/
def candList (points : List FreeSpace) (item : itemToPack) :
    List (FreeSpace × Int × Int × Int) :=
  points.flatMap fun ep =>
    (rotations item.item.w item.item.h item.item.d).map fun r =>
      (ep, r.1, r.2.1, r.2.2)

/-- The two feasibility checks of `findBestPlacement`: fits in the box
and does not overlap any existing placement. -/
def candFeasible (box : InputBox) (placements : List Placement)
    (c : FreeSpace × Int × Int × Int) : Bool :=
  fitsInBox box c.1.x c.1.y c.1.z c.2.1 c.2.2.1 c.2.2.2 &&
    !hasOverlap placements c.1.x c.1.y c.1.z c.2.1 c.2.2.1 c.2.2.2

/-- Score of a candidate (anchor, rotation) pair. -/
def candScore (c : FreeSpace × Int × Int × Int) : Int :=
  placementScore c.1 c.2.1 c.2.2.1 c.2.2.2

/-- The candidate a `Cand` stands for. -/
def candOf (b : Cand) : FreeSpace × Int × Int × Int := (b.ep, b.w, b.h, b.d)

/-- One iteration of `findBestPlacement`'s scan: keep the best (strictly
smaller score wins, first wins ties).  The Go `bestScore = math.MaxInt`
sentinel is modelled by `none`. -/
def fbpStep (box : InputBox) (placements : List Placement)
    (best : Option Cand) (c : FreeSpace × Int × Int × Int) : Option Cand :=
  if candFeasible box placements c then
    match best with
    | none => some ⟨candScore c, c.1, c.2.1, c.2.2.1, c.2.2.2⟩
    | some b =>
      if candScore c < b.score then some ⟨candScore c, c.1, c.2.1, c.2.2.1, c.2.2.2⟩
      else some b
  else best

/-- `findBestPlacement(points, item, box, placements)`.  The Go function
returns indices `(pointIdx, rotIdx)` (`-1` when nothing fits); here the
selected anchor and rotation are returned directly, `none` for `-1`. -/
def findBestPlacement (points : List FreeSpace) (item : itemToPack)
    (box : InputBox) (placements : List Placement) : Option Cand :=
  (candList points item).foldl (fbpStep box placements) none

/-- Body of the loop in `isInsidePlacement` / `isInsidePlaced`: the
corner of `ep` lies strictly inside placement `p`'s half-open volume. -/
def cornerInside (ep : FreeSpace) (p : Placement) : Bool :=
  decide (p.x ≤ ep.x) && decide (ep.x < p.x + p.w) &&
    decide (p.y ≤ ep.y) && decide (ep.y < p.y + p.h) &&
    decide (p.z ≤ ep.z) && decide (ep.z < p.z + p.d)

/-- `isInsidePlacement(ep, placements)`. -/
def isInsidePlacement (ep : FreeSpace) (placements : List Placement) : Bool :=
  placements.any fun p => cornerInside ep p

/-- `isInsidePlaced(ep, placed)`. -/
def isInsidePlaced (ep : FreeSpace) (placed : Placement) : Bool :=
  cornerInside ep placed

/-- Recursion of `deduplicatePoints`: the Go `seen` map is modelled as
the list of keys seen so far. -/
def dedupGo (seen : List (Int × Int × Int)) : List FreeSpace → List FreeSpace
  | [] => []
  | p :: rest =>
    if (p.x, p.y, p.z) ∈ seen then dedupGo seen rest
    else p :: dedupGo ((p.x, p.y, p.z) :: seen) rest

/-- `deduplicatePoints(points)`: keep the first point for each (x,y,z). -/
def deduplicatePoints (points : List FreeSpace) : List FreeSpace :=
  dedupGo [] points

/-- The three candidate extreme points generated in
`updateExtremePoints` from a placed box (right, top, front corners). -/
def newCandidatePoints (placed : Placement) (box : InputBox) : List FreeSpace :=
  [⟨placed.x + placed.w, placed.y, placed.z,
    box.w - (placed.x + placed.w), box.h - placed.y, box.d - placed.z⟩,
   ⟨placed.x, placed.y + placed.h, placed.z,
    box.w - placed.x, box.h - (placed.y + placed.h), box.d - placed.z⟩,
   ⟨placed.x, placed.y, placed.z + placed.d,
    box.w - placed.x, box.h - placed.y, box.d - (placed.z + placed.d)⟩]

/-- The bounds filter applied to new extreme points in
`updateExtremePoints`. -/
def inBoxBounds (ep : FreeSpace) (box : InputBox) : Bool :=
  !(decide (box.w ≤ ep.x) || decide (box.h ≤ ep.y) || decide (box.d ≤ ep.z) ||
    decide (ep.x < 0) || decide (ep.y < 0) || decide (ep.z < 0))

/-- `updateExtremePoints(eps, placed, box, placements)`. -/
def updateExtremePoints (eps : List FreeSpace) (placed : Placement)
    (box : InputBox) (placements : List Placement) : List FreeSpace :=
  let valid := (newCandidatePoints placed box).filter fun ep =>
    inBoxBounds ep box && !isInsidePlacement ep placements
  let kept := eps.filter fun ep => !isInsidePlaced ep placed
  deduplicatePoints (valid ++ kept)

/-- The item loop of `packIntoBox`: state is the extreme-point list, the
placements so far and the accumulated packed volume; the returned `List
Bool` is the per-item packed flag (the Go `packed` array, in item
order). -/
def packGo (box : InputBox) (eps : List FreeSpace) (placements : List Placement)
    (vol : Int) : List itemToPack → List Placement × List Bool × Int
  | [] => (placements, [], vol)
  | item :: rest =>
    let sorted := sortByPosition eps
    match findBestPlacement sorted item box placements with
    | none =>
      let r := packGo box sorted placements vol rest
      (r.1, false :: r.2.1, r.2.2)
    | some b =>
      let pl : Placement := ⟨item.item.id, b.ep.x, b.ep.y, b.ep.z, b.w, b.h, b.d⟩
      let ps2 := placements ++ [pl]
      let r := packGo box (updateExtremePoints sorted pl box ps2) ps2
        (vol + item.volume) rest
      (r.1, true :: r.2.1, r.2.2)

/-- `packIntoBox(items, box)`: seed the frontier with the origin
spanning the whole box and run the item loop. -/
def packIntoBox (items : List itemToPack) (box : InputBox) :
    List Placement × List Bool × Int :=
  packGo box [⟨0, 0, 0, box.w, box.h, box.d⟩] [] 0 items

/-- The per-item expansion inside `expandItems`: `quantity` copies
(none when quantity ≤ 0, as with Go's `for range item.Quantity`). -/
def expandOne (item : InputItem) : List itemToPack :=
  List.replicate item.quantity.toNat
    ⟨item, item.w * item.h * item.d, max item.w (max item.h item.d)⟩

/-- `expandItems(inputItems)`. -/
def expandItems (inputItems : List InputItem) : List itemToPack :=
  inputItems.flatMap expandOne

/-- The comparison of `sortItemsByVolume`: volume descending, ties by
maxDim descending. -/
def itemLe (a b : itemToPack) : Bool :=
  if a.volume ≠ b.volume then decide (b.volume < a.volume)
  else decide (b.maxDim ≤ a.maxDim)

/-- `sortItemsByVolume(items)`. -/
def sortItemsByVolume (items : List itemToPack) : List itemToPack :=
  insertionSort itemLe items

/-- The box comparison used in `Pack`: volume ascending. -/
def boxLe (a b : InputBox) : Bool := decide (a.volume ≤ b.volume)

/-- The box sort in `Pack` (`slices.SortFunc` on a clone). -/
def sortBoxes (boxes : List InputBox) : List InputBox :=
  insertionSort boxLe boxes

/-- The running best of `findBestBox`: chosen box, its simulated
placements, packed flags and packed volume (the Go function tracks the
box by index `bestIdx`; here the box itself is carried). -/
structure BoxResult where
  box : InputBox
  pls : List Placement
  pk : List Bool
  pv : Int
deriving DecidableEq, Repr

/-- One iteration of `findBestBox`'s loop over box types: skip boxes
with `packedVol <= 0`; otherwise prefer strictly greater packed volume,
and on ties strictly smaller box volume. -/
def fbbStep (items : List itemToPack) (best : Option BoxResult)
    (box : InputBox) : Option BoxResult :=
  let r := packIntoBox items box
  if r.2.2 ≤ 0 then best
  else
    match best with
    | none => some ⟨box, r.1, r.2.1, r.2.2⟩
    | some b =>
      if b.pv < r.2.2 then some ⟨box, r.1, r.2.1, r.2.2⟩
      else if r.2.2 = b.pv ∧ box.volume < b.box.volume then some ⟨box, r.1, r.2.1, b.pv⟩
      else some b

/-- `findBestBox(items, boxes)`; `none` models `bestIdx == -1`. -/
def findBestBox (items : List itemToPack) (boxes : List InputBox) :
    Option BoxResult :=
  boxes.foldl (fbbStep items) none

/-- `filterUnpacked(items, packed)`: the items whose flag is false
(`packed` always has the same length as `items`). -/
def filterUnpacked (items : List itemToPack) (packed : List Bool) :
    List itemToPack :=
  ((items.zip packed).filter fun p => !p.2).map Prod.fst

/-- The items whose flag is true (complement of `filterUnpacked`; a
specification helper, not a separate source function). -/
def packedItems (items : List itemToPack) (packed : List Bool) :
    List itemToPack :=
  ((items.zip packed).filter fun p => p.2).map Prod.fst

/-- The selection loop of `Pack`.  The Go loop terminates because a
committed box always packs at least one item; the guard
`rest.length < remaining.length` makes that measure explicit (it is
proved below that the guard never fails when a box is committed). -/
def packLoop (boxes : List InputBox) (remaining : List itemToPack)
    (acc : List PackedBox) : List PackedBox × List InputItem :=
  if remaining.isEmpty then (acc, [])
  else
    match findBestBox remaining boxes with
    | none => (acc, remaining.map fun it => it.item)
    | some r =>
      let rest := filterUnpacked remaining r.pk
      if h : rest.length < remaining.length then
        packLoop boxes rest (acc ++ [⟨r.box.id, r.pls⟩])
      else (acc ++ [⟨r.box.id, r.pls⟩], [])
termination_by remaining.length
decreasing_by exact h

/-- `Pack(inputItems, availableBoxes)`: expand, sort items (volume
descending) and boxes (volume ascending), then run the selection loop. -/
def Pack (inputItems : List InputItem) (availableBoxes : List InputBox) :
    List PackedBox × List InputItem :=
  packLoop (sortBoxes availableBoxes) (sortItemsByVolume (expandItems inputItems)) []

/-- Two placements do not intersect: `boxesOverlap` of the first against
the second's coordinates and dimensions is false. -/
def noIntersect (a b : Placement) : Prop :=
  boxesOverlap a b.x b.y b.z b.w b.h b.d = false

/-- Every committed box of an output has pairwise non-intersecting
contents. -/
def noOverlapOutput (out : List PackedBox) : Prop :=
  ∀ pb ∈ out, pb.contents.Pairwise noIntersect

/-- A placement lies inside box dimensions `b`: nonnegative position and
position plus effective dimension within the box on every axis. -/
def placementInBounds (b : InputBox) (pl : Placement) : Prop :=
  0 ≤ pl.x ∧ 0 ≤ pl.y ∧ 0 ≤ pl.z ∧
    pl.x + pl.w ≤ b.w ∧ pl.y + pl.h ≤ b.h ∧ pl.z + pl.d ≤ b.d

/-- Every committed box of an output names a box type from `boxes` and
all its placements lie inside that box type's dimensions. -/
def boundsOutput (boxes : List InputBox) (out : List PackedBox) : Prop :=
  ∀ pb ∈ out, ∃ b ∈ boxes, pb.boxID = b.id ∧ ∀ pl ∈ pb.contents, placementInBounds b pl

/-- Every placement's effective dimensions are one of the 6 rotations of
an input item carrying its id. -/
def rotOutput (items : List InputItem) (out : List PackedBox) : Prop :=
  ∀ pb ∈ out, ∀ pl ∈ pb.contents,
    ∃ it ∈ items, it.id = pl.itemID ∧ (pl.w, pl.h, pl.d) ∈ rotations it.w it.h it.d

/-- Item identities of all placements of an output, in order. -/
def placedIds (out : List PackedBox) : List String :=
  (out.flatMap fun pb => pb.contents).map fun pl => pl.itemID

/-- Identities of a unit-item list. -/
def unitIds (items : List itemToPack) : List String :=
  items.map fun it => it.item.id

/-- Well-formedness of a `Cand` produced by `findBestPlacement`: it is a
feasible candidate and carries its own score. -/
def candOK (box : InputBox) (placements : List Placement) (b : Cand) : Prop :=
  candFeasible box placements (candOf b) = true ∧ b.score = candScore (candOf b)

/-- Well-formedness of a `BoxResult` produced by `findBestBox`: it is the
simulation result for its own box and packs positive volume. -/
def fbbOK (items : List itemToPack) (r : BoxResult) : Prop :=
  packIntoBox items r.box = (r.pls, r.pk, r.pv) ∧ 0 < r.pv

theorem orderedInsert_perm {α : Type} (le : α → α → Bool) (a : α) :
    ∀ l : List α, (orderedInsert le a l).Perm (a :: l) := by
  intro l
  induction l with
  | nil => exact List.Perm.refl _
  | cons b l ih =>
    unfold orderedInsert
    by_cases hle : le a b = true
    · rw [if_pos hle]
    · rw [if_neg hle]
      exact (ih.cons b).trans (List.Perm.swap a b l)

theorem insertionSort_perm {α : Type} (le : α → α → Bool) :
    ∀ l : List α, (insertionSort le l).Perm l := by
  intro l
  induction l with
  | nil => exact List.Perm.refl _
  | cons a l ih =>
    unfold insertionSort
    exact (orderedInsert_perm le a (insertionSort le l)).trans (ih.cons a)

theorem mem_insertionSort {α : Type} {le : α → α → Bool} {l : List α} {a : α} :
    a ∈ insertionSort le l ↔ a ∈ l :=
  (insertionSort_perm le l).mem_iff

theorem hasOverlap_eq_false {placements : List Placement} {x y z w h d : Int} :
    hasOverlap placements x y z w h d = false ↔
      ∀ p ∈ placements, boxesOverlap p x y z w h d = false := by
  simp [hasOverlap, List.any_eq_false]

theorem candList_mem {points : List FreeSpace} {item : itemToPack}
    {c : FreeSpace × Int × Int × Int} :
    c ∈ candList points item ↔
      c.1 ∈ points ∧ c.2 ∈ rotations item.item.w item.item.h item.item.d := by
  constructor
  · intro hc
    rcases List.mem_flatMap.mp hc with ⟨ep, hep, hmem⟩
    rcases List.mem_map.mp hmem with ⟨r, hr, heq⟩
    subst heq
    exact ⟨hep, hr⟩
  · rintro ⟨h1, h2⟩
    exact List.mem_flatMap.mpr ⟨c.1, h1, List.mem_map.mpr ⟨c.2, h2, rfl⟩⟩

theorem fbpStep_eq_none {box : InputBox} {ps : List Placement}
    {best : Option Cand} {c : FreeSpace × Int × Int × Int} :
    fbpStep box ps best c = none ↔ best = none ∧ candFeasible box ps c = false := by
  unfold fbpStep
  by_cases hc : candFeasible box ps c
  · cases best with
    | none => simp [hc]
    | some b => simp [hc]; split <;> simp
  · simp at hc
    simp [hc]

theorem fbp_fold_none (box : InputBox) (ps : List Placement) :
    ∀ (l : List (FreeSpace × Int × Int × Int)) (best : Option Cand),
      l.foldl (fbpStep box ps) best = none ↔
        best = none ∧ ∀ c ∈ l, candFeasible box ps c = false := by
  intro l
  induction l with
  | nil => intro best; simp
  | cons c l ih =>
    intro best
    rw [List.foldl_cons, ih, fbpStep_eq_none]
    simp only [List.forall_mem_cons]
    tauto

theorem fbpStep_none_feas {box : InputBox} {ps : List Placement}
    {c : FreeSpace × Int × Int × Int} (hc : candFeasible box ps c = true) :
    fbpStep box ps none c = some ⟨candScore c, c.1, c.2.1, c.2.2.1, c.2.2.2⟩ := by
  simp [fbpStep, hc]

theorem fbpStep_some_lt {box : InputBox} {ps : List Placement} {b : Cand}
    {c : FreeSpace × Int × Int × Int} (hc : candFeasible box ps c = true)
    (hs : candScore c < b.score) :
    fbpStep box ps (some b) c = some ⟨candScore c, c.1, c.2.1, c.2.2.1, c.2.2.2⟩ := by
  simp [fbpStep, hc, hs]

theorem fbpStep_some_ge {box : InputBox} {ps : List Placement} {b : Cand}
    {c : FreeSpace × Int × Int × Int} (hc : candFeasible box ps c = true)
    (hs : ¬candScore c < b.score) :
    fbpStep box ps (some b) c = some b := by
  simp [fbpStep, hc, hs]

theorem fbpStep_infeas {box : InputBox} {ps : List Placement} {best : Option Cand}
    {c : FreeSpace × Int × Int × Int} (hc : ¬candFeasible box ps c = true) :
    fbpStep box ps best c = best := by
  simp [fbpStep, hc]

theorem fbpStep_OK {box : InputBox} {ps : List Placement}
    {best : Option Cand} {c : FreeSpace × Int × Int × Int}
    (hbest : ∀ b0, best = some b0 → candOK box ps b0) :
    ∀ b1, fbpStep box ps best c = some b1 → candOK box ps b1 := by
  intro b1 h
  by_cases hc : candFeasible box ps c = true
  · cases best with
    | none =>
      rw [fbpStep_none_feas hc] at h
      obtain rfl := Option.some.inj h
      exact ⟨hc, rfl⟩
    | some b =>
      by_cases hs : candScore c < b.score
      · rw [fbpStep_some_lt hc hs] at h
        obtain rfl := Option.some.inj h
        exact ⟨hc, rfl⟩
      · rw [fbpStep_some_ge hc hs] at h
        obtain rfl := Option.some.inj h
        exact hbest b rfl
  · rw [fbpStep_infeas hc] at h
    exact hbest b1 h

theorem fbp_fold_some (box : InputBox) (ps : List Placement) :
    ∀ (l : List (FreeSpace × Int × Int × Int)) (best : Option Cand) (res : Cand),
      l.foldl (fbpStep box ps) best = some res →
      (∀ b0, best = some b0 → candOK box ps b0) →
      candOK box ps res ∧
        (best = some res ∨ candOf res ∈ l) ∧
        (∀ c ∈ l, candFeasible box ps c = true → res.score ≤ candScore c) ∧
        (∀ b0, best = some b0 → res.score ≤ b0.score) := by
  intro l
  induction l with
  | nil =>
    intro best res h hbest
    simp only [List.foldl_nil] at h
    refine ⟨hbest res h, Or.inl h, ?_, ?_⟩
    · intro c hc
      exact absurd hc (List.not_mem_nil c)
    · intro b0 hb0
      rw [h] at hb0
      obtain rfl := Option.some.inj hb0
      exact le_refl _
  | cons c l ih =>
    intro best res h hbest
    rw [List.foldl_cons] at h
    have hstep : ∀ b0, fbpStep box ps best c = some b0 → candOK box ps b0 :=
      fbpStep_OK hbest
    obtain ⟨hOK, hmem, hmin, hle⟩ := ih (fbpStep box ps best c) res h hstep
    by_cases hc : candFeasible box ps c = true
    · cases best with
      | none =>
        have hstepeq := @fbpStep_none_feas box ps c hc
        refine ⟨hOK, ?_, ?_, ?_⟩
        · rcases hmem with hm | hm
          · rw [hstepeq] at hm
            obtain rfl := Option.some.inj hm
            right
            show c ∈ c :: l
            exact List.mem_cons_self c l
          · exact Or.inr (List.mem_cons_of_mem _ hm)
        · intro c' hc' hfeas
          rcases List.mem_cons.mp hc' with rfl | hmemc
          · simpa using hle _ hstepeq
          · exact hmin _ hmemc hfeas
        · intro b0 hb0
          simp at hb0
      | some b =>
        by_cases hs : candScore c < b.score
        · have hstepeq := fbpStep_some_lt hc hs
          refine ⟨hOK, ?_, ?_, ?_⟩
          · rcases hmem with hm | hm
            · rw [hstepeq] at hm
              obtain rfl := Option.some.inj hm
              right
              show c ∈ c :: l
              exact List.mem_cons_self c l
            · exact Or.inr (List.mem_cons_of_mem _ hm)
          · intro c' hc' hfeas
            rcases List.mem_cons.mp hc' with rfl | hmemc
            · simpa using hle _ hstepeq
            · exact hmin _ hmemc hfeas
          · intro b0 hb0
            obtain rfl := Option.some.inj hb0
            have h1 : res.score ≤ candScore c := by simpa using hle _ hstepeq
            exact le_trans h1 (le_of_lt hs)
        · have hstepeq := fbpStep_some_ge hc hs
          refine ⟨hOK, ?_, ?_, ?_⟩
          · rcases hmem with hm | hm
            · rw [hstepeq] at hm
              exact Or.inl hm
            · exact Or.inr (List.mem_cons_of_mem _ hm)
          · intro c' hc' hfeas
            rcases List.mem_cons.mp hc' with rfl | hmemc
            · exact le_trans (hle _ hstepeq) (not_lt.mp hs)
            · exact hmin _ hmemc hfeas
          · intro b0 hb0
            obtain rfl := Option.some.inj hb0
            exact hle _ hstepeq
    · have hstepeq := @fbpStep_infeas box ps best c hc
      refine ⟨hOK, ?_, ?_, ?_⟩
      · rcases hmem with hm | hm
        · rw [hstepeq] at hm
          exact Or.inl hm
        · exact Or.inr (List.mem_cons_of_mem _ hm)
      · intro c' hc' hfeas
        rcases List.mem_cons.mp hc' with rfl | hmemc
        · exact absurd hfeas hc
        · exact hmin _ hmemc hfeas
      · intro b0 hb0
        apply hle
        rw [hstepeq, hb0]

theorem findBestPlacement_eq_none {points : List FreeSpace} {item : itemToPack}
    {box : InputBox} {ps : List Placement} :
    findBestPlacement points item box ps = none ↔
      ∀ c ∈ candList points item, candFeasible box ps c = false := by
  unfold findBestPlacement
  rw [fbp_fold_none]
  simp

theorem findBestPlacement_eq_some {points : List FreeSpace} {item : itemToPack}
    {box : InputBox} {ps : List Placement} {res : Cand} :
    findBestPlacement points item box ps = some res →
      candOK box ps res ∧ candOf res ∈ candList points item ∧
        ∀ c ∈ candList points item, candFeasible box ps c = true →
          res.score ≤ candScore c := by
  intro h
  obtain ⟨hOK, hmem, hmin, _⟩ :=
    fbp_fold_some box ps (candList points item) none res h (by intro b0 hb0; simp at hb0)
  rcases hmem with hm | hm
  · simp at hm
  · exact ⟨hOK, hm, hmin⟩

theorem candFeasible_iff {box : InputBox} {ps : List Placement}
    {c : FreeSpace × Int × Int × Int} :
    candFeasible box ps c = true ↔
      fitsInBox box c.1.x c.1.y c.1.z c.2.1 c.2.2.1 c.2.2.2 = true ∧
        hasOverlap ps c.1.x c.1.y c.1.z c.2.1 c.2.2.1 c.2.2.2 = false := by
  simp [candFeasible]

theorem fitsInBox_iff {box : InputBox} {x y z w h d : Int} :
    fitsInBox box x y z w h d = true ↔
      0 ≤ x ∧ 0 ≤ y ∧ 0 ≤ z ∧ x + w ≤ box.w ∧ y + h ≤ box.h ∧ z + d ≤ box.d := by
  simp [fitsInBox, and_assoc]

theorem packGo_flags_length (box : InputBox) :
    ∀ (items : List itemToPack) (eps : List FreeSpace) (ps : List Placement) (vol : Int),
      ((packGo box eps ps vol items).2.1).length = items.length := by
  intro items
  induction items with
  | nil => intro eps ps vol; simp [packGo]
  | cons item rest ih =>
    intro eps ps vol
    cases hfb : findBestPlacement (sortByPosition eps) item box ps with
    | none => simp [packGo, hfb, ih]
    | some b => simp [packGo, hfb, ih]

theorem packGo_allFalse_vol (box : InputBox) :
    ∀ (items : List itemToPack) (eps : List FreeSpace) (ps : List Placement) (vol : Int),
      (∀ f ∈ (packGo box eps ps vol items).2.1, f = false) →
      (packGo box eps ps vol items).2.2 = vol := by
  intro items
  induction items with
  | nil => intro eps ps vol _; simp [packGo]
  | cons item rest ih =>
    intro eps ps vol hall
    cases hfb : findBestPlacement (sortByPosition eps) item box ps with
    | none =>
      simp only [packGo, hfb] at hall ⊢
      exact ih _ _ _ fun f hf => hall f (List.mem_cons_of_mem _ hf)
    | some b =>
      simp only [packGo, hfb] at hall
      have := hall true (List.mem_cons_self _ _)
      simp at this

theorem packGo_pairwise (box : InputBox) :
    ∀ (items : List itemToPack) (eps : List FreeSpace) (ps : List Placement) (vol : Int),
      ps.Pairwise noIntersect → ((packGo box eps ps vol items).1).Pairwise noIntersect := by
  intro items
  induction items with
  | nil => intro eps ps vol hps; simpa [packGo] using hps
  | cons item rest ih =>
    intro eps ps vol hps
    cases hfb : findBestPlacement (sortByPosition eps) item box ps with
    | none =>
      simp only [packGo, hfb]
      exact ih _ _ _ hps
    | some b =>
      simp only [packGo, hfb]
      apply ih
      obtain ⟨⟨hfeas, _⟩, _, _⟩ := findBestPlacement_eq_some hfb
      have hov : hasOverlap ps b.ep.x b.ep.y b.ep.z b.w b.h b.d = false :=
        (candFeasible_iff.mp hfeas).2
      rw [List.pairwise_append]
      refine ⟨hps, List.pairwise_singleton _ _, ?_⟩
      intro a ha pl hpl
      rw [List.mem_singleton] at hpl
      subst hpl
      exact hasOverlap_eq_false.mp hov a ha

theorem packGo_bounds (box : InputBox) :
    ∀ (items : List itemToPack) (eps : List FreeSpace) (ps : List Placement) (vol : Int),
      (∀ p ∈ ps, placementInBounds box p) →
      ∀ p ∈ (packGo box eps ps vol items).1, placementInBounds box p := by
  intro items
  induction items with
  | nil => intro eps ps vol hps; simpa [packGo] using hps
  | cons item rest ih =>
    intro eps ps vol hps
    cases hfb : findBestPlacement (sortByPosition eps) item box ps with
    | none =>
      simp only [packGo, hfb]
      exact ih _ _ _ hps
    | some b =>
      simp only [packGo, hfb]
      apply ih
      obtain ⟨⟨hfeas, _⟩, _, _⟩ := findBestPlacement_eq_some hfb
      have hfit : fitsInBox box b.ep.x b.ep.y b.ep.z b.w b.h b.d = true :=
        (candFeasible_iff.mp hfeas).1
      intro p hp
      rcases List.mem_append.mp hp with hmem | hmem
      · exact hps p hmem
      · rw [List.mem_singleton] at hmem
        subst hmem
        exact fitsInBox_iff.mp hfit

theorem packGo_ids (box : InputBox) :
    ∀ (items : List itemToPack) (eps : List FreeSpace) (ps : List Placement) (vol : Int),
      ((packGo box eps ps vol items).1).map (fun p => p.itemID) =
        ps.map (fun p => p.itemID) ++
          unitIds (packedItems items (packGo box eps ps vol items).2.1) := by
  intro items
  induction items with
  | nil => intro eps ps vol; simp [packGo, packedItems, unitIds]
  | cons item rest ih =>
    intro eps ps vol
    cases hfb : findBestPlacement (sortByPosition eps) item box ps with
    | none =>
      simp only [packGo, hfb]
      rw [ih]
      simp [packedItems, unitIds]
    | some b =>
      simp only [packGo, hfb]
      rw [ih]
      simp [packedItems, unitIds]

theorem packGo_rot (I : List InputItem) (box : InputBox) :
    ∀ (items : List itemToPack) (eps : List FreeSpace) (ps : List Placement) (vol : Int),
      (∀ it ∈ items, it.item ∈ I) →
      (∀ p ∈ ps, ∃ orig ∈ I, orig.id = p.itemID ∧
        (p.w, p.h, p.d) ∈ rotations orig.w orig.h orig.d) →
      ∀ p ∈ (packGo box eps ps vol items).1,
        ∃ orig ∈ I, orig.id = p.itemID ∧
          (p.w, p.h, p.d) ∈ rotations orig.w orig.h orig.d := by
  intro items
  induction items with
  | nil => intro eps ps vol _ hps; simpa [packGo] using hps
  | cons item rest ih =>
    intro eps ps vol hitems hps
    cases hfb : findBestPlacement (sortByPosition eps) item box ps with
    | none =>
      simp only [packGo, hfb]
      exact ih _ _ _ (fun it hit => hitems it (List.mem_cons_of_mem _ hit)) hps
    | some b =>
      simp only [packGo, hfb]
      apply ih _ _ _ fun it hit => hitems it (List.mem_cons_of_mem _ hit)
      obtain ⟨_, hmem, _⟩ := findBestPlacement_eq_some hfb
      have hrot : (b.w, b.h, b.d) ∈ rotations item.item.w item.item.h item.item.d :=
        (candList_mem.mp hmem).2
      intro p hp
      rcases List.mem_append.mp hp with hmemp | hmemp
      · exact hps p hmemp
      · rw [List.mem_singleton] at hmemp
        subst hmemp
        exact ⟨item.item, hitems item (List.mem_cons_self _ _), rfl, hrot⟩

theorem packIntoBox_flags_length (items : List itemToPack) (box : InputBox) :
    ((packIntoBox items box).2.1).length = items.length :=
  packGo_flags_length box items _ _ _

theorem fbbStep_skip {items : List itemToPack} {best : Option BoxResult} {box : InputBox}
    (h : (packIntoBox items box).2.2 ≤ 0) :
    fbbStep items best box = best := by
  simp [fbbStep, h]

theorem fbbStep_none_pos {items : List itemToPack} {box : InputBox}
    (h : ¬(packIntoBox items box).2.2 ≤ 0) :
    fbbStep items none box =
      some ⟨box, (packIntoBox items box).1, (packIntoBox items box).2.1,
        (packIntoBox items box).2.2⟩ := by
  simp [fbbStep, h]

theorem fbbStep_some_gt {items : List itemToPack} {box : InputBox} {b : BoxResult}
    (hpos : ¬(packIntoBox items box).2.2 ≤ 0)
    (hgt : b.pv < (packIntoBox items box).2.2) :
    fbbStep items (some b) box =
      some ⟨box, (packIntoBox items box).1, (packIntoBox items box).2.1,
        (packIntoBox items box).2.2⟩ := by
  simp [fbbStep, hpos, hgt]

theorem fbbStep_some_tie {items : List itemToPack} {box : InputBox} {b : BoxResult}
    (hpos : ¬(packIntoBox items box).2.2 ≤ 0)
    (hgt : ¬b.pv < (packIntoBox items box).2.2)
    (htie : (packIntoBox items box).2.2 = b.pv ∧ box.volume < b.box.volume) :
    fbbStep items (some b) box =
      some ⟨box, (packIntoBox items box).1, (packIntoBox items box).2.1, b.pv⟩ := by
  simp only [fbbStep]
  rw [if_neg hpos]
  show (if b.pv < (packIntoBox items box).2.2 then _ else _) = _
  rw [if_neg hgt, if_pos htie]

theorem fbbStep_some_keep {items : List itemToPack} {box : InputBox} {b : BoxResult}
    (hpos : ¬(packIntoBox items box).2.2 ≤ 0)
    (hgt : ¬b.pv < (packIntoBox items box).2.2)
    (htie : ¬((packIntoBox items box).2.2 = b.pv ∧ box.volume < b.box.volume)) :
    fbbStep items (some b) box = some b := by
  simp only [fbbStep]
  rw [if_neg hpos]
  show (if b.pv < (packIntoBox items box).2.2 then _ else _) = some b
  rw [if_neg hgt, if_neg htie]

theorem fbbStep_OK {items : List itemToPack} {best : Option BoxResult} {box : InputBox}
    (hbest : ∀ b0, best = some b0 → fbbOK items b0) :
    ∀ b1, fbbStep items best box = some b1 → fbbOK items b1 := by
  intro b1 h
  by_cases hpos : (packIntoBox items box).2.2 ≤ 0
  · rw [fbbStep_skip hpos] at h
    exact hbest b1 h
  · cases best with
    | none =>
      rw [fbbStep_none_pos hpos] at h
      obtain rfl := Option.some.inj h
      exact ⟨rfl, not_le.mp hpos⟩
    | some b =>
      by_cases hgt : b.pv < (packIntoBox items box).2.2
      · rw [fbbStep_some_gt hpos hgt] at h
        obtain rfl := Option.some.inj h
        exact ⟨rfl, not_le.mp hpos⟩
      · by_cases htie : (packIntoBox items box).2.2 = b.pv ∧ box.volume < b.box.volume
        · rw [fbbStep_some_tie hpos hgt htie] at h
          obtain rfl := Option.some.inj h
          refine ⟨?_, ?_⟩
          · show packIntoBox items box = (_, _, b.pv)
            rw [← htie.1]
          · show (0 : Int) < b.pv
            rw [← htie.1]
            exact not_le.mp hpos
        · rw [fbbStep_some_keep hpos hgt htie] at h
          obtain rfl := Option.some.inj h
          exact hbest b rfl

theorem fbbStep_eq_none {items : List itemToPack} {best : Option BoxResult} {box : InputBox} :
    fbbStep items best box = none ↔ best = none ∧ (packIntoBox items box).2.2 ≤ 0 := by
  by_cases hpos : (packIntoBox items box).2.2 ≤ 0
  · rw [fbbStep_skip hpos]
    simp [hpos]
  · constructor
    · intro h
      exfalso
      cases best with
      | none =>
        rw [fbbStep_none_pos hpos] at h
        simp at h
      | some b =>
        by_cases hgt : b.pv < (packIntoBox items box).2.2
        · rw [fbbStep_some_gt hpos hgt] at h
          simp at h
        · by_cases htie : (packIntoBox items box).2.2 = b.pv ∧ box.volume < b.box.volume
          · rw [fbbStep_some_tie hpos hgt htie] at h
            simp at h
          · rw [fbbStep_some_keep hpos hgt htie] at h
            simp at h
    · rintro ⟨_, h2⟩
      exact absurd h2 hpos

theorem fbb_fold_none (items : List itemToPack) :
    ∀ (l : List InputBox) (best : Option BoxResult),
      l.foldl (fbbStep items) best = none ↔
        best = none ∧ ∀ b ∈ l, (packIntoBox items b).2.2 ≤ 0 := by
  intro l
  induction l with
  | nil => intro best; simp
  | cons c l ih =>
    intro best
    rw [List.foldl_cons, ih, fbbStep_eq_none]
    simp only [List.forall_mem_cons]
    tauto

theorem fbb_fold_some (items : List itemToPack) :
    ∀ (l : List InputBox) (best : Option BoxResult) (res : BoxResult),
      l.foldl (fbbStep items) best = some res →
      (∀ b0, best = some b0 → fbbOK items b0) →
      fbbOK items res ∧
        (best = some res ∨ res.box ∈ l) ∧
        (∀ b ∈ l, (packIntoBox items b).2.2 ≤ res.pv) ∧
        (∀ b ∈ l, (packIntoBox items b).2.2 = res.pv → res.box.volume ≤ b.volume) ∧
        (∀ b0, best = some b0 →
          b0.pv ≤ res.pv ∧ (b0.pv = res.pv → res.box.volume ≤ b0.box.volume)) := by
  intro l
  induction l with
  | nil =>
    intro best res h hbest
    simp only [List.foldl_nil] at h
    refine ⟨hbest res h, Or.inl h, ?_, ?_, ?_⟩
    · intro b hb
      exact absurd hb (List.not_mem_nil b)
    · intro b hb
      exact absurd hb (List.not_mem_nil b)
    · intro b0 hb0
      rw [h] at hb0
      obtain rfl := Option.some.inj hb0
      exact ⟨le_refl _, fun _ => le_refl _⟩
  | cons c l ih =>
    intro best res h hbest
    rw [List.foldl_cons] at h
    have hstep : ∀ b0, fbbStep items best c = some b0 → fbbOK items b0 :=
      fbbStep_OK hbest
    obtain ⟨hOK, hmem, hmax, htiemin, hle⟩ := ih (fbbStep items best c) res h hstep
    by_cases hpos : (packIntoBox items c).2.2 ≤ 0
    · have hstepeq := @fbbStep_skip items best c hpos
      refine ⟨hOK, ?_, ?_, ?_, ?_⟩
      · rcases hmem with hm | hm
        · rw [hstepeq] at hm
          exact Or.inl hm
        · exact Or.inr (List.mem_cons_of_mem _ hm)
      · intro b hb
        rcases List.mem_cons.mp hb with rfl | hmemb
        · exact le_trans hpos (le_of_lt hOK.2)
        · exact hmax _ hmemb
      · intro b hb heq
        rcases List.mem_cons.mp hb with rfl | hmemb
        · exfalso
          have := hOK.2
          omega
        · exact htiemin _ hmemb heq
      · intro b0 hb0
        apply hle
        rw [hstepeq, hb0]
    · cases best with
      | none =>
        have hstepeq := @fbbStep_none_pos items c hpos
        have hleNew := hle _ hstepeq
        refine ⟨hOK, ?_, ?_, ?_, ?_⟩
        · rcases hmem with hm | hm
          · rw [hstepeq] at hm
            obtain rfl := Option.some.inj hm
            exact Or.inr (List.mem_cons_self _ _)
          · exact Or.inr (List.mem_cons_of_mem _ hm)
        · intro b hb
          rcases List.mem_cons.mp hb with rfl | hmemb
          · exact hleNew.1
          · exact hmax _ hmemb
        · intro b hb heq
          rcases List.mem_cons.mp hb with rfl | hmemb
          · exact hleNew.2 heq
          · exact htiemin _ hmemb heq
        · intro b0 hb0
          simp at hb0
      | some b =>
        by_cases hgt : b.pv < (packIntoBox items c).2.2
        · have hstepeq := fbbStep_some_gt hpos hgt
          have hleNew := hle _ hstepeq
          refine ⟨hOK, ?_, ?_, ?_, ?_⟩
          · rcases hmem with hm | hm
            · rw [hstepeq] at hm
              obtain rfl := Option.some.inj hm
              exact Or.inr (List.mem_cons_self _ _)
            · exact Or.inr (List.mem_cons_of_mem _ hm)
          · intro b' hb'
            rcases List.mem_cons.mp hb' with rfl | hmemb
            · exact hleNew.1
            · exact hmax _ hmemb
          · intro b' hb' heq
            rcases List.mem_cons.mp hb' with rfl | hmemb
            · exact hleNew.2 heq
            · exact htiemin _ hmemb heq
          · intro b0 hb0
            obtain rfl := Option.some.inj hb0
            have h1 : (packIntoBox items c).2.2 ≤ res.pv := hleNew.1
            constructor
            · omega
            · intro heq
              exfalso
              omega
        · by_cases htie : (packIntoBox items c).2.2 = b.pv ∧ c.volume < b.box.volume
          · have hstepeq := fbbStep_some_tie hpos hgt htie
            have hleNew := hle _ hstepeq
            dsimp only at hleNew
            refine ⟨hOK, ?_, ?_, ?_, ?_⟩
            · rcases hmem with hm | hm
              · rw [hstepeq] at hm
                obtain rfl := Option.some.inj hm
                exact Or.inr (List.mem_cons_self _ _)
              · exact Or.inr (List.mem_cons_of_mem _ hm)
            · intro b' hb'
              rcases List.mem_cons.mp hb' with rfl | hmemb
              · have := hleNew.1
                omega
              · exact hmax _ hmemb
            · intro b' hb' heq
              rcases List.mem_cons.mp hb' with rfl | hmemb
              · have h2 := hleNew.2 (by omega)
                exact h2
              · exact htiemin _ hmemb heq
            · intro b0 hb0
              obtain rfl := Option.some.inj hb0
              have h1 := hleNew.1
              constructor
              · omega
              · intro heq
                have h2 := hleNew.2 (by omega)
                have h3 := htie.2
                omega
          · have hstepeq := fbbStep_some_keep hpos hgt htie
            have hleB := hle _ hstepeq
            refine ⟨hOK, ?_, ?_, ?_, ?_⟩
            · rcases hmem with hm | hm
              · rw [hstepeq] at hm
                exact Or.inl hm
              · exact Or.inr (List.mem_cons_of_mem _ hm)
            · intro b' hb'
              rcases List.mem_cons.mp hb' with rfl | hmemb
              · have := hleB.1
                omega
              · exact hmax _ hmemb
            · intro b' hb' heq
              rcases List.mem_cons.mp hb' with rfl | hmemb
              · have hpvb : (packIntoBox items b').2.2 = b.pv := by omega
                have hnlt : ¬b'.volume < b.box.volume := fun hlt => htie ⟨hpvb, hlt⟩
                have h2 := hleB.2 (by omega)
                omega
              · exact htiemin _ hmemb heq
            · intro b0 hb0
              obtain rfl := Option.some.inj hb0
              exact hleB

theorem findBestBox_eq_none {items : List itemToPack} {boxes : List InputBox} :
    findBestBox items boxes = none ↔
      ∀ b ∈ boxes, (packIntoBox items b).2.2 ≤ 0 := by
  unfold findBestBox
  rw [fbb_fold_none]
  simp

theorem findBestBox_eq_some {items : List itemToPack} {boxes : List InputBox}
    {res : BoxResult} :
    findBestBox items boxes = some res →
      fbbOK items res ∧ res.box ∈ boxes ∧
        (∀ b ∈ boxes, (packIntoBox items b).2.2 ≤ res.pv) ∧
        (∀ b ∈ boxes, (packIntoBox items b).2.2 = res.pv → res.box.volume ≤ b.volume) := by
  intro h
  obtain ⟨hOK, hmem, hmax, htiemin, _⟩ :=
    fbb_fold_some items boxes none res h (by intro b0 hb0; simp at hb0)
  rcases hmem with hm | hm
  · simp at hm
  · exact ⟨hOK, hm, hmax, htiemin⟩

theorem filterUnpacked_length_le (items : List itemToPack) (pk : List Bool) :
    (filterUnpacked items pk).length ≤ items.length := by
  simp only [filterUnpacked, List.length_map]
  refine le_trans (List.length_filter_le _ _) ?_
  rw [List.length_zip]
  exact min_le_left _ _

theorem filterUnpacked_length_lt :
    ∀ (pk : List Bool) (items : List itemToPack), pk.length = items.length →
      (∃ f ∈ pk, f = true) → (filterUnpacked items pk).length < items.length := by
  intro pk
  induction pk with
  | nil =>
    intro items _ hex
    simp at hex
  | cons f pk ih =>
    intro items hlen hex
    cases items with
    | nil => simp at hlen
    | cons it items =>
      simp only [List.length_cons] at hlen
      have hlen' : pk.length = items.length := by omega
      by_cases hf : f = true
      · subst hf
        have h1 : filterUnpacked (it :: items) (true :: pk) = filterUnpacked items pk := by
          simp [filterUnpacked]
        rw [h1, List.length_cons]
        exact Nat.lt_succ_of_le (filterUnpacked_length_le items pk)
      · have hf' : f = false := by
          cases f
          · rfl
          · exact absurd rfl hf
        subst hf'
        have h1 : filterUnpacked (it :: items) (false :: pk) =
            it :: filterUnpacked items pk := by
          simp [filterUnpacked]
        rw [h1]
        simp only [List.length_cons]
        have hex' : ∃ g ∈ pk, g = true := by
          rcases hex with ⟨g, hg, hgt⟩
          rcases List.mem_cons.mp hg with rfl | hmem
          · simp at hgt
          · exact ⟨g, hmem, hgt⟩
        exact Nat.succ_lt_succ (ih items hlen' hex')

theorem packed_filter_perm (items : List itemToPack) (pk : List Bool)
    (hlen : items.length ≤ pk.length) :
    (packedItems items pk ++ filterUnpacked items pk).Perm items := by
  unfold packedItems filterUnpacked
  rw [← List.map_append]
  have hperm := (List.filter_append_perm (fun p => p.2) (items.zip pk)).map Prod.fst
  rw [List.map_fst_zip items pk hlen] at hperm
  exact hperm

theorem findBestBox_step {items : List itemToPack} {boxes : List InputBox}
    {res : BoxResult} (h : findBestBox items boxes = some res) :
    (∃ f ∈ res.pk, f = true) ∧ res.pk.length = items.length ∧
      (filterUnpacked items res.pk).length < items.length := by
  obtain ⟨⟨hpi, hpv⟩, _, _, _⟩ := findBestBox_eq_some h
  have hpk : res.pk = (packIntoBox items res.box).2.1 := by rw [hpi]
  have hlen : res.pk.length = items.length := by
    rw [hpk]
    exact packIntoBox_flags_length items res.box
  have hex : ∃ f ∈ res.pk, f = true := by
    by_contra hall
    push_neg at hall
    have hall' : ∀ f ∈ (packIntoBox items res.box).2.1, f = false := by
      intro f hf
      have hne := hall f (by rw [hpk]; exact hf)
      cases f
      · rfl
      · exact absurd rfl hne
    have hzero : (packIntoBox items res.box).2.2 = 0 :=
      packGo_allFalse_vol res.box items _ _ _ hall'
    have hres : (packIntoBox items res.box).2.2 = res.pv := by rw [hpi]
    omega
  exact ⟨hex, hlen, filterUnpacked_length_lt res.pk items hlen hex⟩

theorem packLoop_nil (boxes : List InputBox) (acc : List PackedBox) :
    packLoop boxes [] acc = (acc, []) := by
  rw [packLoop]
  rfl

theorem packLoop_none {boxes : List InputBox} {remaining : List itemToPack}
    {acc : List PackedBox} (hne : remaining ≠ [])
    (hfb : findBestBox remaining boxes = none) :
    packLoop boxes remaining acc = (acc, remaining.map fun it => it.item) := by
  have hie : remaining.isEmpty = false := by
    cases remaining with
    | nil => exact absurd rfl hne
    | cons a l => rfl
  rw [packLoop, hie]
  simp [hfb]

theorem packLoop_some {boxes : List InputBox} {remaining : List itemToPack}
    {acc : List PackedBox} {r : BoxResult}
    (hfb : findBestBox remaining boxes = some r)
    (hlt : (filterUnpacked remaining r.pk).length < remaining.length) :
    packLoop boxes remaining acc =
      packLoop boxes (filterUnpacked remaining r.pk) (acc ++ [⟨r.box.id, r.pls⟩]) := by
  have hne : remaining ≠ [] := by
    intro h
    rw [h] at hlt
    simp at hlt
  have hie : remaining.isEmpty = false := by
    cases remaining with
    | nil => exact absurd rfl hne
    | cons a l => rfl
  rw [packLoop, hie]
  simp [hfb, hlt]

theorem packLoop_noOverlap (boxes : List InputBox) :
    ∀ (n : Nat) (remaining : List itemToPack) (acc : List PackedBox),
      remaining.length ≤ n → noOverlapOutput acc →
      noOverlapOutput (packLoop boxes remaining acc).1 := by
  intro n
  induction n with
  | zero =>
    intro remaining acc hlen hacc
    obtain rfl : remaining = [] := List.eq_nil_of_length_eq_zero (Nat.le_zero.mp hlen)
    rw [packLoop_nil]
    exact hacc
  | succ n ih =>
    intro remaining acc hlen hacc
    by_cases hne : remaining = []
    · subst hne
      rw [packLoop_nil]
      exact hacc
    · cases hfb : findBestBox remaining boxes with
      | none =>
        rw [packLoop_none hne hfb]
        exact hacc
      | some r =>
        obtain ⟨_, _, hlt⟩ := findBestBox_step hfb
        rw [packLoop_some hfb hlt]
        apply ih
        · omega
        · intro pb hpb
          rcases List.mem_append.mp hpb with hmem | hmem
          · exact hacc pb hmem
          · rw [List.mem_singleton] at hmem
            subst hmem
            show r.pls.Pairwise noIntersect
            obtain ⟨⟨hpi, _⟩, _, _, _⟩ := findBestBox_eq_some hfb
            have hpls : r.pls = (packIntoBox remaining r.box).1 := by rw [hpi]
            rw [hpls]
            exact packGo_pairwise r.box remaining _ _ _ List.Pairwise.nil

theorem packLoop_bounds (boxes : List InputBox) :
    ∀ (n : Nat) (remaining : List itemToPack) (acc : List PackedBox),
      remaining.length ≤ n → boundsOutput boxes acc →
      boundsOutput boxes (packLoop boxes remaining acc).1 := by
  intro n
  induction n with
  | zero =>
    intro remaining acc hlen hacc
    obtain rfl : remaining = [] := List.eq_nil_of_length_eq_zero (Nat.le_zero.mp hlen)
    rw [packLoop_nil]
    exact hacc
  | succ n ih =>
    intro remaining acc hlen hacc
    by_cases hne : remaining = []
    · subst hne
      rw [packLoop_nil]
      exact hacc
    · cases hfb : findBestBox remaining boxes with
      | none =>
        rw [packLoop_none hne hfb]
        exact hacc
      | some r =>
        obtain ⟨_, _, hlt⟩ := findBestBox_step hfb
        rw [packLoop_some hfb hlt]
        apply ih
        · omega
        · intro pb hpb
          rcases List.mem_append.mp hpb with hmem | hmem
          · exact hacc pb hmem
          · rw [List.mem_singleton] at hmem
            subst hmem
            obtain ⟨⟨hpi, _⟩, hmembox, _, _⟩ := findBestBox_eq_some hfb
            refine ⟨r.box, hmembox, rfl, ?_⟩
            show ∀ pl ∈ r.pls, placementInBounds r.box pl
            have hpls : r.pls = (packIntoBox remaining r.box).1 := by rw [hpi]
            rw [hpls]
            exact packGo_bounds r.box remaining _ _ _ (by intro p hp; simp at hp)

theorem packLoop_conserv (boxes : List InputBox) :
    ∀ (n : Nat) (remaining : List itemToPack) (acc : List PackedBox),
      remaining.length ≤ n →
      (placedIds (packLoop boxes remaining acc).1 ++
        ((packLoop boxes remaining acc).2).map fun it => it.id).Perm
        (placedIds acc ++ unitIds remaining) := by
  intro n
  induction n with
  | zero =>
    intro remaining acc hlen
    obtain rfl : remaining = [] := List.eq_nil_of_length_eq_zero (Nat.le_zero.mp hlen)
    rw [packLoop_nil]
    simp [unitIds]
  | succ n ih =>
    intro remaining acc hlen
    by_cases hne : remaining = []
    · subst hne
      rw [packLoop_nil]
      simp [unitIds]
    · cases hfb : findBestBox remaining boxes with
      | none =>
        rw [packLoop_none hne hfb]
        have : (remaining.map fun it => it.item).map (fun it => it.id) =
            unitIds remaining := by
          simp [unitIds]
        rw [this]
      | some r =>
        obtain ⟨_, hlenpk, hlt⟩ := findBestBox_step hfb
        rw [packLoop_some hfb hlt]
        have hstep := ih (filterUnpacked remaining r.pk) (acc ++ [⟨r.box.id, r.pls⟩])
          (by omega)
        refine hstep.trans ?_
        have hplaced : placedIds (acc ++ [⟨r.box.id, r.pls⟩]) =
            placedIds acc ++ r.pls.map fun pl => pl.itemID := by
          simp [placedIds]
        rw [hplaced, List.append_assoc]
        refine List.Perm.append_left (placedIds acc) ?_
        obtain ⟨⟨hpi, _⟩, _, _, _⟩ := findBestBox_eq_some hfb
        have hpls : r.pls = (packIntoBox remaining r.box).1 := by rw [hpi]
        have hpk : r.pk = (packIntoBox remaining r.box).2.1 := by rw [hpi]
        have hids : (r.pls.map fun pl => pl.itemID) =
            unitIds (packedItems remaining r.pk) := by
          rw [hpls, hpk]
          have := packGo_ids r.box remaining
            [⟨0, 0, 0, r.box.w, r.box.h, r.box.d⟩] [] 0
          simpa [packIntoBox] using this
        rw [hids]
        have hperm := packed_filter_perm remaining r.pk (le_of_eq hlenpk.symm)
        have hperm2 := hperm.map fun it => it.item.id
        simpa [unitIds] using hperm2

theorem packLoop_rot (I : List InputItem) (boxes : List InputBox) :
    ∀ (n : Nat) (remaining : List itemToPack) (acc : List PackedBox),
      remaining.length ≤ n →
      (∀ it ∈ remaining, it.item ∈ I) →
      rotOutput I acc →
      rotOutput I (packLoop boxes remaining acc).1 := by
  intro n
  induction n with
  | zero =>
    intro remaining acc hlen _ hacc
    obtain rfl : remaining = [] := List.eq_nil_of_length_eq_zero (Nat.le_zero.mp hlen)
    rw [packLoop_nil]
    exact hacc
  | succ n ih =>
    intro remaining acc hlen hrem hacc
    by_cases hne : remaining = []
    · subst hne
      rw [packLoop_nil]
      exact hacc
    · cases hfb : findBestBox remaining boxes with
      | none =>
        rw [packLoop_none hne hfb]
        exact hacc
      | some r =>
        obtain ⟨_, _, hlt⟩ := findBestBox_step hfb
        rw [packLoop_some hfb hlt]
        apply ih
        · omega
        · intro it hit
          apply hrem
          simp only [filterUnpacked] at hit
          rcases List.mem_map.mp hit with ⟨p, hp, rfl⟩
          exact (List.of_mem_zip (List.mem_of_mem_filter hp)).1
        · intro pb hpb
          rcases List.mem_append.mp hpb with hmem | hmem
          · exact hacc pb hmem
          · rw [List.mem_singleton] at hmem
            subst hmem
            show ∀ pl ∈ r.pls, _
            obtain ⟨⟨hpi, _⟩, _, _, _⟩ := findBestBox_eq_some hfb
            have hpls : r.pls = (packIntoBox remaining r.box).1 := by rw [hpi]
            rw [hpls]
            exact packGo_rot I r.box remaining _ _ _ hrem (by intro p hp; simp at hp)

theorem packLoop_unpacked_mem (boxes : List InputBox) :
    ∀ (n : Nat) (remaining : List itemToPack) (acc : List PackedBox),
      remaining.length ≤ n →
      ∀ u ∈ (packLoop boxes remaining acc).2, ∃ it ∈ remaining, u = it.item := by
  intro n
  induction n with
  | zero =>
    intro remaining acc hlen
    obtain rfl : remaining = [] := List.eq_nil_of_length_eq_zero (Nat.le_zero.mp hlen)
    rw [packLoop_nil]
    intro u hu
    simp at hu
  | succ n ih =>
    intro remaining acc hlen
    by_cases hne : remaining = []
    · subst hne
      rw [packLoop_nil]
      intro u hu
      simp at hu
    · cases hfb : findBestBox remaining boxes with
      | none =>
        rw [packLoop_none hne hfb]
        intro u hu
        rcases List.mem_map.mp hu with ⟨it, hit, rfl⟩
        exact ⟨it, hit, rfl⟩
      | some r =>
        obtain ⟨_, _, hlt⟩ := findBestBox_step hfb
        rw [packLoop_some hfb hlt]
        intro u hu
        obtain ⟨it, hit, hequ⟩ := ih _ _ (by omega) u hu
        refine ⟨it, ?_, hequ⟩
        simp only [filterUnpacked] at hit
        rcases List.mem_map.mp hit with ⟨p, hp, rfl⟩
        exact (List.of_mem_zip (List.mem_of_mem_filter hp)).1

theorem expandItems_item_mem {items : List InputItem} {it : itemToPack}
    (h : it ∈ expandItems items) : it.item ∈ items := by
  rcases List.mem_flatMap.mp h with ⟨a, ha, hmem⟩
  obtain rfl := List.eq_of_mem_replicate hmem
  exact ha

theorem expandItems_quantity_pos {items : List InputItem} {it : itemToPack}
    (h : it ∈ expandItems items) : 0 < it.item.quantity := by
  rcases List.mem_flatMap.mp h with ⟨a, ha, hmem⟩
  rw [expandOne] at hmem
  rcases List.mem_replicate.mp hmem with ⟨hn, rfl⟩
  show 0 < a.quantity
  omega

theorem expandOne_eq_nil {it : InputItem} (h : it.quantity ≤ 0) : expandOne it = [] := by
  unfold expandOne
  rw [Int.toNat_of_nonpos h]
  rfl

theorem expandItems_filter (items : List InputItem) :
    expandItems (items.filter fun it => 0 < it.quantity) = expandItems items := by
  induction items with
  | nil => rfl
  | cons it rest ih =>
    by_cases hq : 0 < it.quantity
    · rw [List.filter_cons_of_pos (by simpa using hq)]
      show expandOne it ++ expandItems (rest.filter fun a => 0 < a.quantity) =
        expandOne it ++ expandItems rest
      rw [ih]
    · rw [List.filter_cons_of_neg (by simpa using hq)]
      have hnil : expandOne it = [] := expandOne_eq_nil (by omega)
      show expandItems (rest.filter fun a => 0 < a.quantity) =
        expandOne it ++ expandItems rest
      rw [hnil, List.nil_append, ih]

theorem expandItems_zero {items : List InputItem}
    (h : ∀ it ∈ items, it.quantity = 0) : expandItems items = [] := by
  induction items with
  | nil => rfl
  | cons it rest ih =>
    show expandOne it ++ expandItems rest = []
    rw [expandOne_eq_nil (le_of_eq (h it (List.mem_cons_self _ _))),
      List.nil_append]
    exact ih fun a ha => h a (List.mem_cons_of_mem _ ha)

theorem mem_sortItemsByVolume {items : List itemToPack} {it : itemToPack} :
    it ∈ sortItemsByVolume items ↔ it ∈ items :=
  mem_insertionSort

theorem mem_sortBoxes {boxes : List InputBox} {b : InputBox} :
    b ∈ sortBoxes boxes ↔ b ∈ boxes :=
  mem_insertionSort

theorem sortItemsByVolume_perm (items : List itemToPack) :
    (sortItemsByVolume items).Perm items :=
  insertionSort_perm itemLe items

/-- C1: for every input item list and container-type list whose dimensions
are all positive, in every committed container of `Pack`'s output every
pair of distinct placements does not intersect: `boxesOverlap` is false
for each pair, i.e. on at least one axis the two boxes do not strictly
overlap (touching faces do not count as intersection). -/
theorem c1_no_overlap (items : List InputItem) (boxes : List InputBox)
    (hitems : ∀ it ∈ items, 0 < it.w ∧ 0 < it.h ∧ 0 < it.d)
    (hboxes : ∀ b ∈ boxes, 0 < b.w ∧ 0 < b.h ∧ 0 < b.d) :
    noOverlapOutput (Pack items boxes).1 := by
  unfold Pack
  exact packLoop_noOverlap (sortBoxes boxes)
    (sortItemsByVolume (expandItems items)).length
    (sortItemsByVolume (expandItems items)) [] (le_refl _)
    (by intro pb hpb; simp at hpb)

/-- Witness for C1 at a concrete input. -/
theorem c1_no_overlap_witness :
    (∀ it ∈ [(⟨"a", 1, 1, 1, 2⟩ : InputItem)], 0 < it.w ∧ 0 < it.h ∧ 0 < it.d) ∧
      noOverlapOutput (Pack [⟨"a", 1, 1, 1, 2⟩] [⟨"b", 2, 2, 2⟩]).1 :=
  ⟨by decide, c1_no_overlap [⟨"a", 1, 1, 1, 2⟩] [⟨"b", 2, 2, 2⟩] (by decide) (by decide)⟩

/-- C2: for every input with positive dimensions, every placement of every
committed container of `Pack`'s output has nonnegative position and
position plus effective dimension within the dimensions of the container
type (identified by id) it was committed to, on all three axes. -/
theorem c2_bounds (items : List InputItem) (boxes : List InputBox)
    (hitems : ∀ it ∈ items, 0 < it.w ∧ 0 < it.h ∧ 0 < it.d)
    (hboxes : ∀ b ∈ boxes, 0 < b.w ∧ 0 < b.h ∧ 0 < b.d) :
    boundsOutput boxes (Pack items boxes).1 := by
  unfold Pack
  have h := packLoop_bounds (sortBoxes boxes)
    (sortItemsByVolume (expandItems items)).length
    (sortItemsByVolume (expandItems items)) [] (le_refl _)
    (by intro pb hpb; simp at hpb)
  intro pb hpb
  obtain ⟨b, hb, hid, hpl⟩ := h pb hpb
  exact ⟨b, mem_sortBoxes.mp hb, hid, hpl⟩

/-- Witness for C2 at a concrete input. -/
theorem c2_bounds_witness :
    (∀ it ∈ [(⟨"a", 1, 1, 1, 2⟩ : InputItem)], 0 < it.w ∧ 0 < it.h ∧ 0 < it.d) ∧
      boundsOutput [⟨"b", 2, 2, 2⟩] (Pack [⟨"a", 1, 1, 1, 2⟩] [⟨"b", 2, 2, 2⟩]).1 :=
  ⟨by decide, c2_bounds [⟨"a", 1, 1, 1, 2⟩] [⟨"b", 2, 2, 2⟩] (by decide) (by decide)⟩

/-- C3: the item identities of all placements across all committed
containers together with the identities of the unpacked list are a
permutation of the identities of the quantity-expanded unit items, and in
particular the expanded unit-item count equals the sum of contents
lengths over committed containers plus the unpacked count. -/
theorem c3_conservation (items : List InputItem) (boxes : List InputBox) :
    (placedIds (Pack items boxes).1 ++
        ((Pack items boxes).2).map fun it => it.id).Perm
      (unitIds (expandItems items)) ∧
    (((Pack items boxes).1).map fun pb => pb.contents.length).sum +
        ((Pack items boxes).2).length = (expandItems items).length := by
  have hperm : (placedIds (Pack items boxes).1 ++
      ((Pack items boxes).2).map fun it => it.id).Perm
      (unitIds (expandItems items)) := by
    unfold Pack
    have h := packLoop_conserv (sortBoxes boxes)
      (sortItemsByVolume (expandItems items)).length
      (sortItemsByVolume (expandItems items)) [] (le_refl _)
    have h0 : placedIds ([] : List PackedBox) = [] := rfl
    rw [h0, List.nil_append] at h
    exact h.trans ((sortItemsByVolume_perm (expandItems items)).map _)
  refine ⟨hperm, ?_⟩
  have hlen := hperm.length_eq
  simp only [List.length_append, List.length_map, placedIds, unitIds,
    List.length_flatMap, Function.comp] at hlen
  exact hlen

/-- Witness for C3 at a concrete input. -/
theorem c3_conservation_witness :
    (placedIds (Pack [⟨"a", 1, 1, 1, 2⟩] [⟨"b", 2, 2, 2⟩]).1 ++
        ((Pack [⟨"a", 1, 1, 1, 2⟩] [⟨"b", 2, 2, 2⟩]).2).map fun it => it.id).Perm
      (unitIds (expandItems [⟨"a", 1, 1, 1, 2⟩])) :=
  (c3_conservation [⟨"a", 1, 1, 1, 2⟩] [⟨"b", 2, 2, 2⟩]).1

/-- C4: when the selection loop runs `findBestBox` on the remaining items,
a committed box type packs the maximal simulated volume over all box
types, ties are resolved towards the smallest box volume, and the loop
commits it; when every box type simulates packed volume 0 the loop stops
and returns all remaining unit items unpacked. -/
theorem c4_selection (items : List itemToPack) (boxes : List InputBox)
    (acc : List PackedBox) :
    (∀ r, findBestBox items boxes = some r →
      r.box ∈ boxes ∧ 0 < r.pv ∧
        packIntoBox items r.box = (r.pls, r.pk, r.pv) ∧
        (∀ b ∈ boxes, (packIntoBox items b).2.2 ≤ r.pv) ∧
        (∀ b ∈ boxes, (packIntoBox items b).2.2 = r.pv → r.box.volume ≤ b.volume) ∧
        packLoop boxes items acc =
          packLoop boxes (filterUnpacked items r.pk) (acc ++ [⟨r.box.id, r.pls⟩])) ∧
    ((∀ b ∈ boxes, (packIntoBox items b).2.2 = 0) → items ≠ [] →
      packLoop boxes items acc = (acc, items.map fun it => it.item)) := by
  constructor
  · intro r hfb
    obtain ⟨⟨hpi, hpv⟩, hmem, hmax, htie⟩ := findBestBox_eq_some hfb
    obtain ⟨_, _, hlt⟩ := findBestBox_step hfb
    exact ⟨hmem, hpv, hpi, hmax, htie, packLoop_some hfb hlt⟩
  · intro hall hne
    have hfb : findBestBox items boxes = none :=
      findBestBox_eq_none.mpr fun b hb => le_of_eq (hall b hb)
    exact packLoop_none hne hfb

/-- Witness for C4 at a concrete input. -/
theorem c4_selection_witness :
    (findBestBox (expandItems [⟨"a", 1, 1, 1, 1⟩]) [⟨"b", 2, 2, 2⟩] =
      some ⟨⟨"b", 2, 2, 2⟩, [⟨"a", 0, 0, 0, 1, 1, 1⟩], [true], 1⟩) ∧
      (⟨⟨"b", 2, 2, 2⟩, [⟨"a", 0, 0, 0, 1, 1, 1⟩], [true], 1⟩ : BoxResult).box ∈
        [(⟨"b", 2, 2, 2⟩ : InputBox)] :=
  ⟨by decide,
    ((c4_selection (expandItems [⟨"a", 1, 1, 1, 1⟩]) [⟨"b", 2, 2, 2⟩] []).1
      ⟨⟨"b", 2, 2, 2⟩, [⟨"a", 0, 0, 0, 1, 1, 1⟩], [true], 1⟩ (by decide)).1⟩

/-- C5: in the single-container packer, a committed (anchor, rotation)
pair fits in the box, overlaps no existing placement, and minimises the
score `1000·y + 100·z + 10·x + (freeW − w) + (freeH − h) + (freeD − d)`
over all feasible (anchor, rotation) pairs; when no pair is feasible the
item is left unpacked (flag false, placements unchanged) and the anchor
set is only re-sorted, hence unchanged as a set. -/
theorem c5_placement (points : List FreeSpace) (item : itemToPack) (box : InputBox)
    (ps : List Placement) (eps : List FreeSpace) (vol : Int) (rest : List itemToPack) :
    (∀ res, findBestPlacement points item box ps = some res →
      res.ep ∈ points ∧
        (res.w, res.h, res.d) ∈ rotations item.item.w item.item.h item.item.d ∧
        fitsInBox box res.ep.x res.ep.y res.ep.z res.w res.h res.d = true ∧
        hasOverlap ps res.ep.x res.ep.y res.ep.z res.w res.h res.d = false ∧
        res.score = placementScore res.ep res.w res.h res.d ∧
        (∀ ep ∈ points, ∀ rot ∈ rotations item.item.w item.item.h item.item.d,
          fitsInBox box ep.x ep.y ep.z rot.1 rot.2.1 rot.2.2 = true →
          hasOverlap ps ep.x ep.y ep.z rot.1 rot.2.1 rot.2.2 = false →
          res.score ≤ placementScore ep rot.1 rot.2.1 rot.2.2)) ∧
    (findBestPlacement (sortByPosition eps) item box ps = none →
      (∀ ep ∈ sortByPosition eps, ∀ rot ∈ rotations item.item.w item.item.h item.item.d,
        ¬(fitsInBox box ep.x ep.y ep.z rot.1 rot.2.1 rot.2.2 = true ∧
          hasOverlap ps ep.x ep.y ep.z rot.1 rot.2.1 rot.2.2 = false)) ∧
      packGo box eps ps vol (item :: rest) =
        ((packGo box (sortByPosition eps) ps vol rest).1,
          false :: (packGo box (sortByPosition eps) ps vol rest).2.1,
          (packGo box (sortByPosition eps) ps vol rest).2.2) ∧
      (sortByPosition eps).Perm eps) := by
  constructor
  · intro res hfp
    obtain ⟨⟨hfeas, hscore⟩, hmem, hmin⟩ := findBestPlacement_eq_some hfp
    have hc := candList_mem.mp hmem
    obtain ⟨hfit, hov⟩ := candFeasible_iff.mp hfeas
    refine ⟨hc.1, hc.2, hfit, hov, hscore, ?_⟩
    intro ep hep rot hrot hfite hove
    have hmemc : ((ep, rot.1, rot.2.1, rot.2.2) : FreeSpace × Int × Int × Int) ∈
        candList points item := candList_mem.mpr ⟨hep, hrot⟩
    have hfeasc : candFeasible box ps (ep, rot.1, rot.2.1, rot.2.2) = true :=
      candFeasible_iff.mpr ⟨hfite, hove⟩
    have hgoal := hmin _ hmemc hfeasc
    show res.score ≤ placementScore ep rot.1 rot.2.1 rot.2.2
    exact hgoal
  · intro hnone
    refine ⟨?_, ?_, insertionSort_perm posLe eps⟩
    · intro ep hep rot hrot hcontra
      have hfalse := findBestPlacement_eq_none.mp hnone
        (ep, rot.1, rot.2.1, rot.2.2) (candList_mem.mpr ⟨hep, hrot⟩)
      have htrue : candFeasible box ps (ep, rot.1, rot.2.1, rot.2.2) = true :=
        candFeasible_iff.mpr ⟨hcontra.1, hcontra.2⟩
      rw [hfalse] at htrue
      simp at htrue
    · simp only [packGo, hnone]

/-- Witness for C5 at a concrete input. -/
theorem c5_placement_witness :
    (findBestPlacement [⟨0, 0, 0, 10, 10, 10⟩] ⟨⟨"a", 2, 3, 4, 1⟩, 24, 4⟩
        ⟨"b", 10, 10, 10⟩ [] =
      some ⟨21, ⟨0, 0, 0, 10, 10, 10⟩, 2, 3, 4⟩) ∧
      (⟨21, ⟨0, 0, 0, 10, 10, 10⟩, 2, 3, 4⟩ : Cand).ep ∈
        [(⟨0, 0, 0, 10, 10, 10⟩ : FreeSpace)] :=
  ⟨by decide,
    ((c5_placement [⟨0, 0, 0, 10, 10, 10⟩] ⟨⟨"a", 2, 3, 4, 1⟩, 24, 4⟩
      ⟨"b", 10, 10, 10⟩ [] [] 0 []).1
      ⟨21, ⟨0, 0, 0, 10, 10, 10⟩, 2, 3, 4⟩ (by decide)).1⟩

/-- C6: `Pack` terminates because a committed box always packs at least
one item: whenever `findBestBox` selects a box (candidates with packed
volume ≤ 0 are skipped, so the selected packed volume is positive), its
placement list is non-empty, some packed flag is true, and the filtered
remaining list is strictly shorter. -/
theorem c6_termination (items : List itemToPack) (boxes : List InputBox) :
    ∀ r, findBestBox items boxes = some r →
      r.pls ≠ [] ∧ 0 < r.pv ∧ (∃ f ∈ r.pk, f = true) ∧
        (filterUnpacked items r.pk).length < items.length := by
  intro r hfb
  obtain ⟨⟨hpi, hpv⟩, _, _, _⟩ := findBestBox_eq_some hfb
  obtain ⟨hex, hlenpk, hlt⟩ := findBestBox_step hfb
  refine ⟨?_, hpv, hex, hlt⟩
  intro hnil
  have hpls : r.pls = (packIntoBox items r.box).1 := by rw [hpi]
  have hpk : r.pk = (packIntoBox items r.box).2.1 := by rw [hpi]
  have hids := packGo_ids r.box items [⟨0, 0, 0, r.box.w, r.box.h, r.box.d⟩] [] 0
  have hlen1 : (packIntoBox items r.box).1.length =
      (packedItems items (packIntoBox items r.box).2.1).length := by
    have hlen0 := congrArg List.length hids
    simp only [List.length_map, List.length_append, List.length_nil, unitIds] at hlen0
    show (packGo r.box [⟨0, 0, 0, r.box.w, r.box.h, r.box.d⟩] [] 0 items).1.length =
      (packedItems items
        (packGo r.box [⟨0, 0, 0, r.box.w, r.box.h, r.box.d⟩] [] 0 items).2.1).length
    omega
  have hplen : r.pls.length = (packedItems items r.pk).length := by
    rw [hpls, hpk]
    exact hlen1
  have hperm := packed_filter_perm items r.pk (le_of_eq hlenpk.symm)
  have hlen2 := hperm.length_eq
  rw [List.length_append] at hlen2
  rw [hnil] at hplen
  simp only [List.length_nil] at hplen
  omega

/-- Witness for C6 at a concrete input. -/
theorem c6_termination_witness :
    (findBestBox (expandItems [⟨"a", 1, 1, 1, 1⟩]) [⟨"b", 2, 2, 2⟩] =
      some ⟨⟨"b", 2, 2, 2⟩, [⟨"a", 0, 0, 0, 1, 1, 1⟩], [true], 1⟩) ∧
      (filterUnpacked (expandItems [⟨"a", 1, 1, 1, 1⟩])
          (⟨⟨"b", 2, 2, 2⟩, [⟨"a", 0, 0, 0, 1, 1, 1⟩], [true], 1⟩ : BoxResult).pk).length <
        (expandItems [⟨"a", 1, 1, 1, 1⟩]).length :=
  ⟨by decide,
    (c6_termination (expandItems [⟨"a", 1, 1, 1, 1⟩]) [⟨"b", 2, 2, 2⟩]
      ⟨⟨"b", 2, 2, 2⟩, [⟨"a", 0, 0, 0, 1, 1, 1⟩], [true], 1⟩ (by decide)).2.2.2⟩

/-- C7: every placement's effective dimensions in `Pack`'s output are one
of the 6 axis-aligned rotations (a permutation) of the dimensions of an
input item bearing its id. -/
theorem c7_rotation_valid (items : List InputItem) (boxes : List InputBox) :
    rotOutput items (Pack items boxes).1 := by
  unfold Pack
  refine packLoop_rot items (sortBoxes boxes)
    (sortItemsByVolume (expandItems items)).length
    (sortItemsByVolume (expandItems items)) [] (le_refl _) ?_ ?_
  · intro it hit
    exact expandItems_item_mem (mem_sortItemsByVolume.mp hit)
  · intro pb hpb
    simp at hpb

/-- Witness for C7 at a concrete input. -/
theorem c7_rotation_valid_witness :
    rotOutput [⟨"a", 1, 1, 1, 2⟩] (Pack [⟨"a", 1, 1, 1, 2⟩] [⟨"b", 2, 2, 2⟩]).1 :=
  c7_rotation_valid [⟨"a", 1, 1, 1, 2⟩] [⟨"b", 2, 2, 2⟩]

/-- C8: `Pack` is deterministic — equal inputs produce identical outputs:
the same committed containers in the same order with the same placements,
and the same unpacked list. -/
theorem c8_deterministic (items1 items2 : List InputItem)
    (boxes1 boxes2 : List InputBox) (hi : items1 = items2) (hb : boxes1 = boxes2) :
    Pack items1 boxes1 = Pack items2 boxes2 := by
  rw [hi, hb]

/-- Witness for C8 at a concrete input. -/
theorem c8_deterministic_witness :
    Pack [⟨"a", 1, 1, 1, 2⟩] [⟨"b", 2, 2, 2⟩] =
      Pack [⟨"a", 1, 1, 1, 2⟩] [⟨"b", 2, 2, 2⟩] :=
  c8_deterministic _ _ _ _ rfl rfl

/-- C9: `Pack` on an empty item list, or with all quantities zero,
returns no committed containers and no unpacked items; `Pack` with zero
container types returns no committed containers and every expanded unit
item in the unpacked list; none of these is an error state. -/
theorem c9_degenerate (items : List InputItem) (boxes : List InputBox) :
    Pack [] boxes = ([], []) ∧
      ((∀ it ∈ items, it.quantity = 0) → Pack items boxes = ([], [])) ∧
      (Pack items []).1 = [] ∧
      ((Pack items []).2).Perm ((expandItems items).map fun it => it.item) := by
  have hkey : Pack items [] =
      ([], (sortItemsByVolume (expandItems items)).map fun it => it.item) := by
    show packLoop (sortBoxes []) (sortItemsByVolume (expandItems items)) [] = _
    by_cases hcase : sortItemsByVolume (expandItems items) = []
    · rw [hcase, packLoop_nil]
      simp
    · have hfb : findBestBox (sortItemsByVolume (expandItems items)) (sortBoxes []) =
          none := rfl
      rw [packLoop_none hcase hfb]
  refine ⟨?_, ?_, ?_, ?_⟩
  · show packLoop (sortBoxes boxes) (sortItemsByVolume (expandItems [])) [] = ([], [])
    have h0 : sortItemsByVolume (expandItems []) = [] := rfl
    rw [h0, packLoop_nil]
  · intro hq
    show packLoop (sortBoxes boxes) (sortItemsByVolume (expandItems items)) [] = ([], [])
    rw [expandItems_zero hq]
    have h0 : sortItemsByVolume [] = [] := rfl
    rw [h0, packLoop_nil]
  · rw [hkey]
  · rw [hkey]
    exact (sortItemsByVolume_perm (expandItems items)).map _

/-- Witness for C9 at a concrete input. -/
theorem c9_degenerate_witness :
    Pack [(⟨"a", 1, 1, 1, 0⟩ : InputItem)] [(⟨"b", 2, 2, 2⟩ : InputBox)] = ([], []) :=
  (c9_degenerate [⟨"a", 1, 1, 1, 0⟩] [⟨"b", 2, 2, 2⟩]).2.1 (by decide)

/-- C10: input items with zero or negative quantity contribute no unit
items and no error: `Pack`'s output is unchanged when they are removed
from the input, and every item in the unpacked output has positive
quantity, so such an item never appears there. -/
theorem c10_nonpositive_quantity (items : List InputItem) (boxes : List InputBox) :
    Pack items boxes = Pack (items.filter fun it => 0 < it.quantity) boxes ∧
      ∀ u ∈ (Pack items boxes).2, 0 < u.quantity := by
  constructor
  · unfold Pack
    rw [expandItems_filter]
  · unfold Pack
    intro u hu
    obtain ⟨it, hit, rfl⟩ := packLoop_unpacked_mem (sortBoxes boxes)
      (sortItemsByVolume (expandItems items)).length
      (sortItemsByVolume (expandItems items)) [] (le_refl _) u hu
    exact expandItems_quantity_pos (mem_sortItemsByVolume.mp hit)

/-- Witness for C10 at a concrete input. -/
theorem c10_nonpositive_quantity_witness :
    Pack [⟨"a", 1, 1, 1, 0⟩, ⟨"b", 1, 1, 1, 1⟩] [⟨"c", 2, 2, 2⟩] =
      Pack ([⟨"a", 1, 1, 1, 0⟩, ⟨"b", 1, 1, 1, 1⟩].filter fun it => 0 < it.quantity)
        [⟨"c", 2, 2, 2⟩] :=
  (c10_nonpositive_quantity [⟨"a", 1, 1, 1, 0⟩, ⟨"b", 1, 1, 1, 1⟩] [⟨"c", 2, 2, 2⟩]).1

end SpaceOptimiser
